import Mathlib

/-!
Shallow embedding of the dependency-graph visualizer (src/main.py, class
DependencyVisualizer) and proofs about its graph builder, renderers and
reverse-dependency lookup.

Modelling conventions:
* Python `dict` fields `dependency_graph` / `reverse_dependency_graph` are
  association lists (`SMap`) with first-match lookup and replace-or-append
  update; nothing in the modelled code iterates over a dict, so only the
  lookup semantics matter.
* Python `set` values are `Finset String`.
* The process state carried on `self` (visited_packages, dependency_graph,
  reverse_dependency_graph) is the structure `St`, threaded explicitly.
* I/O is made explicit: the test file's content is `World.files name`
  (`none` = FileNotFoundError), and the remote package index
  (`get_package_dependencies_ubuntu`, pure plumbing over HTTP + regex per
  the spec's §1 interface boundary) is modelled as the function
  `World.remote package repository` which may fail like the real fetch.
* `print` output is collected as returned lines / strings.
* Raised `ValueError`s become `Except.error`; the recursive builder takes
  explicit fuel (the Python recursion is partial: an infinite dependency
  chain overflows the stack), with `BuildErr.fuelOut` marking exhaustion.
-/

/-! ## Data model -/

/-- Association-list model of a Python `dict` from package name to a set
of package names. -/
abbrev SMap := List (String × Finset String)

/-- Lookup, first matching key (Python `d[k]` / `k in d`). -/
def smapFind : SMap → String → Option (Finset String)
  | [], _ => none
  | e :: rest, k => if e.1 = k then some e.2 else smapFind rest k

/-- Update, replacing the value of an existing key in place or appending a
new binding (Python `d[k] = v`). -/
def smapInsert : SMap → String → Finset String → SMap
  | [], k, v => [(k, v)]
  | e :: rest, k, v => if e.1 = k then (k, v) :: rest else e :: smapInsert rest k v

/-- Mutable visualizer state: `visited_packages`, `dependency_graph` and
`reverse_dependency_graph` (src/main.py lines 14-16). -/
structure St where
  visited : Finset String
  graph : SMap
  rev : SMap

instance instDecEqSt : DecidableEq St := fun a b =>
  decidable_of_iff (a.visited = b.visited ∧ a.graph = b.graph ∧ a.rev = b.rev) (by
    cases a
    cases b
    simp only [St.mk.injEq])

/-- Fresh state, as reset at the start of `run_stage3` (lines 346-348). -/
def St.empty : St := ⟨∅, [], []⟩

/-- The configuration keys the modelled code reads (validated in
`validate_config`, lines 54-80). -/
structure Config where
  package : String
  repository : String
  test_mode : Bool
  ascii_tree : Bool
  filter_substring : String
  test_file : String

/-- The outside world: file system content by file name, and the remote
package index as a fallible function of (package, repository URL). -/
structure World where
  files : String → Option String
  remote : String → String → Except String (List String)

/-- Failure of a build: a propagated source error (`ValueError` in the
Python), or fuel exhaustion of the model (Python stack overflow). -/
inductive BuildErr where
  | fuelOut : BuildErr
  | src : String → BuildErr
deriving DecidableEq

instance instDecEqExcept {ε α : Type} [DecidableEq ε] [DecidableEq α] :
    DecidableEq (Except ε α) := fun a b =>
  match a, b with
  | .error e, .error f =>
    if h : e = f then .isTrue (by rw [h]) else .isFalse (fun c => by cases c; exact h rfl)
  | .error _, .ok _ => .isFalse (fun c => Except.noConfusion c)
  | .ok _, .error _ => .isFalse (fun c => Except.noConfusion c)
  | .ok x, .ok y =>
    if h : x = y then .isTrue (by rw [h]) else .isFalse (fun c => by cases c; exact h rfl)

instance (priority := 2000) instDecEqOption {α : Type} [DecidableEq α] :
    DecidableEq (Option α) := fun a b =>
  match a, b with
  | none, none => .isTrue rfl
  | none, some _ => .isFalse (fun c => Option.noConfusion c)
  | some _, none => .isFalse (fun c => Option.noConfusion c)
  | some x, some y =>
    if h : x = y then .isTrue (by rw [h]) else .isFalse (fun c => by cases c; exact h rfl)

/-- Char-list `pat` occurs at the start of the char-list `s`. -/
def startsWithL : List Char → List Char → Bool
  | _, [] => true
  | [], _ :: _ => false
  | c :: cs, p :: ps => c = p && startsWithL cs ps

/-- Char-list `pat` occurs somewhere in the char-list `s`. -/
def containsL : List Char → List Char → Bool
  | [], pat => pat.isEmpty
  | c :: cs, pat => startsWithL (c :: cs) pat || containsL cs pat

/-- Substring containment, Python `pat in s`. -/
def containsSub (s pat : String) : Bool := containsL s.data pat.data

/-- The filter test of line 196: `filter_substring and filter_substring in
package_name` (an empty filter is falsy in Python). -/
def filteredB (cfg : Config) (p : String) : Bool :=
  if cfg.filter_substring = "" then false else containsSub p cfg.filter_substring

/-! ## Dependency sources -/

/-- Python `line.split(sep, 1)`: the part before the first occurrence of
`sep` and the rest. -/
def splitFirst (s pat : String) : String × String :=
  match s.splitOn pat with
  | [] => (s, "")
  | first :: rest => (first, String.intercalate pat rest)

/-- One line of the flat test mapping, per `get_test_dependencies` (lines
137-145): a stripped line containing `->` yields the package name (before
the first `->`, stripped) and its dependency names (after it, split on
`,`, stripped, empties dropped). -/
def parseLine (line : String) : Option (String × List String) :=
  let l := line.trim
  if containsSub l "->" then
    let pr := splitFirst l "->"
    some (pr.1.trim, ((pr.2.splitOn ",").map String.trim).filter (fun d => d ≠ ""))
  else none

/-- Scan of the test-file lines for the first line defining `p` (the
Python loop `break`s at the first match and defaults to `[]`). -/
def findDeps (p : String) : List String → List String
  | [] => []
  | line :: rest =>
    match parseLine line with
    | some pr => if pr.1 = p then pr.2 else findDeps p rest
    | none => findDeps p rest

/-- Model of `get_test_dependencies` (lines 129-152): a missing test file
raises `ValueError`, otherwise the content is parsed purely. -/
def get_test_dependencies (p : String) (content : Option String) (fileName : String) :
    Except String (List String) :=
  match content with
  | none => .error ("Тестовый файл не найден: " ++ fileName)
  | some c => .ok (findDeps p ((c.trim).splitOn "\n"))

/-- The per-package fetch dispatch inlined in `build_dependency_graph_dfs`
(lines 203-209): test mode reads the configured test file, remote mode
queries the package index. -/
def collectDeps (cfg : Config) (w : World) (p : String) : Except String (List String) :=
  if cfg.test_mode then get_test_dependencies p (w.files cfg.test_file) cfg.test_file
  else w.remote p cfg.repository

/-! ## Graph builder -/

/-- Update of `reverse_dependency_graph` for all direct dependencies of
`p`, in list order (lines 213-216): `rev[d] := rev.get(d, {}) ∪ {p}`. -/
def recordRev : SMap → String → List String → SMap
  | rev, _, [] => rev
  | rev, p, d :: rest => recordRev (smapInsert rev d (insert p ((smapFind rev d).getD ∅))) p rest

/-- The `for dep in dependencies` loop of lines 221-225, parameterized by
the recursive call `next` at the remaining fuel: a dep already in
`visited_packages` is skipped, otherwise it is marked visited, recursed
into, and its transitive set merged into the accumulator. -/
def buildLoopF (next : String → List String → St → Except BuildErr (St × Finset String))
    (np : List String) : List String → St → Finset String → Except BuildErr (St × Finset String)
  | [], st, acc => .ok (st, acc)
  | d :: rest, st, acc =>
    if d ∈ st.visited then buildLoopF next np rest st acc
    else
      match next d np { st with visited := insert d st.visited } with
      | .error e => .error e
      | .ok (st', tdeps) => buildLoopF next np rest st' (acc ∪ tdeps)

/-- Model of `build_dependency_graph_dfs` (lines 186-229), with explicit
fuel bounding the recursion depth. In order: cycle check against
`current_path`, filter check, cache check, fetch (failure propagates),
`dependency_graph[p] := set(deps)`, reverse-edge recording, the dep loop
with `path + [p]`, and the final overwrite `dependency_graph[p] := all`. -/
def build_dependency_graph_dfs :
    Nat → Config → World → String → List String → St → Except BuildErr (St × Finset String)
  | 0, _, _, _, _, _ => .error .fuelOut
  | Nat.succ fuel, cfg, w, p, path, st =>
    if p ∈ path then .ok (st, ∅)
    else if filteredB cfg p then .ok (st, ∅)
    else
      match smapFind st.graph p with
      | some cached => .ok (st, cached)
      | none =>
        match collectDeps cfg w p with
        | .error e => .error (.src e)
        | .ok deps =>
          let st2 : St := { st with graph := smapInsert st.graph p deps.toFinset,
                                    rev := recordRev st.rev p deps }
          match buildLoopF (build_dependency_graph_dfs fuel cfg w) (path ++ [p]) deps st2
              deps.toFinset with
          | .error e => .error e
          | .ok (st3, all) => .ok ({ st3 with graph := smapInsert st3.graph p all }, all)

/-- A whole stage-3 build: fresh state, root from the configuration, empty
path (lines 346-357), keeping the final state on success. -/
def buildFrom (cfg : Config) (w : World) (root : String) : Option St :=
  match build_dependency_graph_dfs 50 cfg w root [] St.empty with
  | .ok x => some x.1
  | .error _ => none

/-- The ForwardGraph entry of `p` (empty if absent). -/
def forwardOf (st : St) (p : String) : Finset String := (smapFind st.graph p).getD ∅

/-- The ReverseGraph entry of `p` (empty if absent). -/
def reverseOf (st : St) (p : String) : Finset String := (smapFind st.rev p).getD ∅

/-! ## Renderers -/

/-- Keys of an association list, as a finite set (used only as the
termination measure of the renderers). -/
def keysF (g : SMap) : Finset String := (g.map Prod.fst).toFinset

theorem mem_keysF_of_find : ∀ (g : SMap) (p : String) (s : Finset String),
    smapFind g p = some s → p ∈ keysF g := by
  intro g
  induction g with
  | nil => intro p s h; simp [smapFind] at h
  | cons e rest ih =>
    intro p s h
    by_cases he : e.1 = p
    · simp [keysF, he, List.mem_map]
    · rw [smapFind, if_neg he] at h
      have := ih p s h
      simp only [keysF, List.map_cons, List.mem_toFinset, List.mem_cons]
      right
      simpa [keysF] using this

theorem card_sdiff_insert_lt (K v : Finset String) (p : String) (hK : p ∈ K) (hv : p ∉ v) :
    (K \ insert p v).card < (K \ v).card := by
  apply Finset.card_lt_card
  rw [Finset.ssubset_iff_of_subset
        (Finset.sdiff_subset_sdiff (le_refl K) (Finset.subset_insert p v))]
  exact ⟨p, Finset.mem_sdiff.2 ⟨hK, hv⟩, by simp⟩

/-- Python `"  " * n`. -/
def indentSp : Nat → String
  | 0 => ""
  | n + 1 => "  " ++ indentSp n

/-- Model of `_print_simple_list` (lines 249-266), returning the printed
lines. A node already in the path-scoped `visited` set prints one
"(уже показан)" line; otherwise the node is added to the set, its name is
printed at depth 0 only, and each dependency (in sorted order) prints a
`└── ` line and, when it has a non-empty graph entry, recurses at
`indent + 2` with a copy of the extended visited set. Termination: each
recursion removes the current graph key `p` from the unvisited keys. -/
def print_simple_list (g : SMap) (p : String) (indent : Nat) (visited : Finset String) :
    List String :=
  if hp : p ∈ visited then [indentSp indent ++ "└── " ++ p ++ " (уже показан)"]
  else
    match hg : smapFind g p with
    | none => if indent = 0 then [p] else []
    | some deps =>
      (if indent = 0 then [p] else []) ++
      (Finset.sort (· ≤ ·) deps).flatMap (fun dep =>
        (indentSp (indent + 1) ++ "└── " ++ dep) ::
        (match smapFind g dep with
         | some ds => if ds = ∅ then [] else print_simple_list g dep (indent + 2) (insert p visited)
         | none => []))
termination_by (keysF g \ visited).card
decreasing_by
  exact card_sdiff_insert_lt (keysF g) visited p (mem_keysF_of_find g p deps hg) hp

/-- Model of `_print_ascii_tree` (lines 268-286), returning the printed
text (the connector is printed with `end=""`, so the recursive call's
first line continues it; output is therefore one string, `\n`-separated).
A node already in `visited` prints a "(цикл)" leaf; otherwise the node
line is printed, and each sorted dependency gets a connector (`└── ` for
the last one, `├── ` otherwise) followed by the recursive rendering with
the extended prefix and a copy of the extended visited set. -/
def print_ascii_tree (g : SMap) (p : String) (visited : Finset String) (pref : String) : String :=
  if hp : p ∈ visited then pref ++ "└── " ++ p ++ " (цикл)\n"
  else
    match hg : smapFind g p with
    | none => pref ++ p ++ "\n"
    | some deps =>
      (pref ++ p ++ "\n") ++
      (if deps = ∅ then ""
       else
         let sd := Finset.sort (· ≤ ·) deps
         String.join (sd.enum.map (fun e =>
           pref ++ (if e.1 = sd.length - 1 then "└── " else "├── ") ++
             print_ascii_tree g e.2 (insert p visited)
               (pref ++ (if e.1 = sd.length - 1 then "    " else "│   ")))))
termination_by (keysF g \ visited).card
decreasing_by
  exact card_sdiff_insert_lt (keysF g) visited p (mem_keysF_of_find g p deps hg) hp

/-- Python `"-" * n`. -/
def dashes (n : Nat) : String := String.join (List.replicate n "-")

/-- Join printed lines into the emitted text. -/
def joinLines (ls : List String) : String := String.join (ls.map (fun l => l ++ "\n"))

/-- Model of `print_dependency_graph` (lines 231-247): header, a notice if
the root has no graph entry, otherwise the selected renderer starting from
a fresh empty path-visited set, then a footer. Returns the (unchanged)
state together with the printed text. -/
def print_dependency_graph (st : St) (cfg : Config) : St × String :=
  let header := "\nПолный граф зависимостей пакета '" ++ cfg.package ++ "':\n" ++
    dashes 50 ++ "\n"
  match smapFind st.graph cfg.package with
  | none => (st, header ++ "Граф зависимостей не построен\n" ++ dashes 50 ++ "\n")
  | some _ =>
    (st, header ++
      (if cfg.ascii_tree then print_ascii_tree st.graph cfg.package ∅ ""
       else joinLines (print_simple_list st.graph cfg.package 0 ∅)) ++
      dashes 50 ++ "\n")

/-! ## Reverse lookup -/

/-- The fallback scan of `find_reverse_dependencies` (lines 300-311):
every parsed line whose dependency list contains `target` contributes its
package name. -/
def reverseScan (target : String) : List String → Finset String
  | [] => ∅
  | line :: rest =>
    match parseLine line with
    | some pr => if target ∈ pr.2 then insert pr.1 (reverseScan target rest)
                 else reverseScan target rest
    | none => reverseScan target rest

/-- Model of `find_reverse_dependencies` (lines 288-316): a cached
ReverseGraph entry is returned directly; otherwise only test mode scans
the test file (a read error is caught and yields the empty set); remote
mode has no fallback and returns the empty set. -/
def find_reverse_dependencies (st : St) (cfg : Config) (w : World) (target : String) :
    Finset String :=
  match smapFind st.rev target with
  | some s => s
  | none =>
    if cfg.test_mode then
      match w.files cfg.test_file with
      | some content => reverseScan target ((content.trim).splitOn "\n")
      | none => ∅
    else ∅

/-! ## Reachability and graph invariants -/

/-- One direct-dependency edge of the (deterministic) source: `q` occurs
in the list a successful fetch returns for `p`. -/
def Step (cfg : Config) (w : World) (p q : String) : Prop :=
  ∃ l, collectDeps cfg w p = .ok l ∧ q ∈ l

/-- Reachability in one or more direct-dependency hops. -/
def Reaches (cfg : Config) (w : World) : String → String → Prop :=
  Relation.TransGen (Step cfg w)

/-- Every ForwardGraph entry contains only packages reachable from its
key. -/
def SoundG (cfg : Config) (w : World) (g : SMap) : Prop :=
  ∀ p s, smapFind g p = some s → ∀ q ∈ s, Reaches cfg w p q

/-- Every ForwardGraph entry contains all direct dependencies of its
key. -/
def DirectG (cfg : Config) (w : World) (g : SMap) : Prop :=
  ∀ p s deps, smapFind g p = some s → collectDeps cfg w p = .ok deps → deps.toFinset ⊆ s

/-- A key is present in an association list. -/
def KeyIn (g : SMap) (q : String) : Prop := ∃ s, smapFind g q = some s

/-- How one builder call extends the state: graph keys persist, reverse
entries only grow, and every newly added graph key had all its direct
edges recorded in the reverse graph. -/
def BuildExtends (cfg : Config) (w : World) (st st' : St) : Prop :=
  (∀ q, KeyIn st.graph q → KeyIn st'.graph q) ∧
  (∀ d s, smapFind st.rev d = some s → ∃ s', smapFind st'.rev d = some s' ∧ s ⊆ s') ∧
  (∀ q deps d, KeyIn st'.graph q → ¬ KeyIn st.graph q → collectDeps cfg w q = .ok deps →
    d ∈ deps → ∃ s, smapFind st'.rev d = some s ∧ q ∈ s)

/-! ## Basic lemmas about the map operations -/

theorem smapFind_smapInsert (m : SMap) (k k' : String) (v : Finset String) :
    smapFind (smapInsert m k v) k' = if k = k' then some v else smapFind m k' := by
  induction m with
  | nil => simp [smapInsert, smapFind]
  | cons e rest ih =>
    rw [smapInsert]
    by_cases he : e.1 = k
    · rw [if_pos he, smapFind]
      by_cases hk : k = k'
      · rw [if_pos hk, if_pos hk]
      · rw [if_neg hk, if_neg hk, smapFind, if_neg (fun h' => hk (he.symm.trans h'))]
    · rw [if_neg he, smapFind, ih]
      by_cases hek : e.1 = k'
      · have hkk : ¬ k = k' := fun h => he (hek.trans h.symm)
        rw [if_pos hek, if_neg hkk, smapFind, if_pos hek]
      · rw [if_neg hek]
        by_cases hkk : k = k'
        · rw [if_pos hkk, if_pos hkk]
        · rw [if_neg hkk, if_neg hkk, smapFind, if_neg hek]

theorem keyIn_smapInsert (m : SMap) (k q : String) (v : Finset String) :
    KeyIn (smapInsert m k v) q ↔ q = k ∨ KeyIn m q := by
  unfold KeyIn
  rw [smapFind_smapInsert]
  by_cases h : k = q
  · subst h
    exact ⟨fun _ => Or.inl rfl, fun _ => by rw [if_pos rfl]; exact ⟨v, rfl⟩⟩
  · rw [if_neg h]
    constructor
    · exact fun hs => Or.inr hs
    · rintro (rfl | hs)
      · exact absurd rfl h
      · exact hs

theorem recordRev_mono : ∀ (deps : List String) (rev : SMap) (p d : String) (s : Finset String),
    smapFind rev d = some s →
    ∃ s', smapFind (recordRev rev p deps) d = some s' ∧ s ⊆ s' := by
  intro deps
  induction deps with
  | nil => intro rev p d s h; exact ⟨s, h, Finset.Subset.refl s⟩
  | cons d' rest ih =>
    intro rev p d s h
    rw [recordRev]
    by_cases hdd : d' = d
    · subst hdd
      have hfind : smapFind (smapInsert rev d' (insert p ((smapFind rev d').getD ∅))) d' =
          some (insert p ((smapFind rev d').getD ∅)) := by
        rw [smapFind_smapInsert, if_pos rfl]
      obtain ⟨s', hs', hsub⟩ := ih _ p d' _ hfind
      refine ⟨s', hs', Finset.Subset.trans ?_ hsub⟩
      rw [h]
      exact Finset.subset_insert p s
    · have hfind : smapFind (smapInsert rev d' (insert p ((smapFind rev d').getD ∅))) d =
          some s := by
        rw [smapFind_smapInsert, if_neg hdd]
        exact h
      exact ih _ p d s hfind

theorem recordRev_mem : ∀ (deps : List String) (rev : SMap) (p d : String), d ∈ deps →
    ∃ s, smapFind (recordRev rev p deps) d = some s ∧ p ∈ s := by
  intro deps
  induction deps with
  | nil => intro rev p d h; cases h
  | cons d' rest ih =>
    intro rev p d h
    rw [recordRev]
    rcases List.mem_cons.mp h with rfl | hmem
    · have hfind : smapFind (smapInsert rev d (insert p ((smapFind rev d).getD ∅))) d =
          some (insert p ((smapFind rev d).getD ∅)) := by
        rw [smapFind_smapInsert, if_pos rfl]
      obtain ⟨s', hs', hsub⟩ := recordRev_mono rest _ p d _ hfind
      exact ⟨s', hs', hsub (Finset.mem_insert_self p _)⟩
    · exact ih _ p d hmem

theorem buildExtends_refl (cfg : Config) (w : World) (st : St) : BuildExtends cfg w st st :=
  ⟨fun _ h => h, fun _ s h => ⟨s, h, Finset.Subset.refl s⟩,
   fun _ _ _ hq hnq _ _ => absurd hq hnq⟩

theorem buildExtends_trans (cfg : Config) (w : World) (st1 st2 st3 : St)
    (h12 : BuildExtends cfg w st1 st2) (h23 : BuildExtends cfg w st2 st3) :
    BuildExtends cfg w st1 st3 := by
  obtain ⟨a12, b12, c12⟩ := h12
  obtain ⟨a23, b23, c23⟩ := h23
  refine ⟨fun q h => a23 q (a12 q h), fun d s h => ?_, fun q deps d hq3 hnq1 hcol hd => ?_⟩
  · obtain ⟨s', h', sub'⟩ := b12 d s h
    obtain ⟨s'', h'', sub''⟩ := b23 d s' h'
    exact ⟨s'', h'', Finset.Subset.trans sub' sub''⟩
  · by_cases h2 : KeyIn st2.graph q
    · obtain ⟨s, hs, hps⟩ := c12 q deps d h2 hnq1 hcol hd
      obtain ⟨s', h', sub'⟩ := b23 d s hs
      exact ⟨s', h', sub' hps⟩
    · exact c23 q deps d hq3 h2 hcol hd

/-! ## Unfolding equations -/

theorem dfs_zero (cfg : Config) (w : World) (p : String) (path : List String) (st : St) :
    build_dependency_graph_dfs 0 cfg w p path st = .error .fuelOut := rfl

theorem dfs_succ (fuel : Nat) (cfg : Config) (w : World) (p : String) (path : List String)
    (st : St) :
    build_dependency_graph_dfs (Nat.succ fuel) cfg w p path st =
      (if p ∈ path then .ok (st, ∅)
       else if filteredB cfg p then .ok (st, ∅)
       else
         match smapFind st.graph p with
         | some cached => .ok (st, cached)
         | none =>
           match collectDeps cfg w p with
           | .error e => .error (.src e)
           | .ok deps =>
             match buildLoopF (build_dependency_graph_dfs fuel cfg w) (path ++ [p]) deps
                 { st with graph := smapInsert st.graph p deps.toFinset,
                           rev := recordRev st.rev p deps } deps.toFinset with
             | .error e => .error e
             | .ok (st3, all) => .ok ({ st3 with graph := smapInsert st3.graph p all }, all)) :=
  rfl

theorem psl_unfold (g : SMap) (p : String) (indent : Nat) (visited : Finset String) :
    print_simple_list g p indent visited =
      if p ∈ visited then [indentSp indent ++ "└── " ++ p ++ " (уже показан)"]
      else
        (if indent = 0 then [p] else []) ++
        (Finset.sort (· ≤ ·) ((smapFind g p).getD ∅)).flatMap (fun dep =>
          (indentSp (indent + 1) ++ "└── " ++ dep) ::
          (match smapFind g dep with
           | some ds => if ds = ∅ then []
                        else print_simple_list g dep (indent + 2) (insert p visited)
           | none => [])) := by
  rw [print_simple_list]
  by_cases hp : p ∈ visited
  · rw [dif_pos hp, if_pos hp]
  · rw [dif_neg hp, if_neg hp]
    split
    next hg => simp [hg, Finset.sort_empty]
    next deps hg => simp [hg]

theorem pat_unfold (g : SMap) (p : String) (visited : Finset String) (pref : String) :
    print_ascii_tree g p visited pref =
      if p ∈ visited then pref ++ "└── " ++ p ++ " (цикл)\n"
      else
        (pref ++ p ++ "\n") ++
        (if (smapFind g p).getD ∅ = ∅ then ""
         else
           String.join ((Finset.sort (· ≤ ·) ((smapFind g p).getD ∅)).enum.map (fun e =>
             pref ++
               (if e.1 = (Finset.sort (· ≤ ·) ((smapFind g p).getD ∅)).length - 1
                then "└── " else "├── ") ++
               print_ascii_tree g e.2 (insert p visited)
                 (pref ++
                   (if e.1 = (Finset.sort (· ≤ ·) ((smapFind g p).getD ∅)).length - 1
                    then "    " else "│   "))))) := by
  rw [print_ascii_tree]
  by_cases hp : p ∈ visited
  · rw [dif_pos hp, if_pos hp]
  · rw [dif_neg hp, if_neg hp]
    split
    next hg => simp [hg]
    next deps hg => simp [hg]

/-! ## Builder invariants -/

theorem dfs_sound_all :
    ∀ (cfg : Config) (w : World) (fuel : Nat) (p : String) (path : List String)
      (st st' : St) (r : Finset String),
      SoundG cfg w st.graph → DirectG cfg w st.graph →
      build_dependency_graph_dfs fuel cfg w p path st = .ok (st', r) →
      (SoundG cfg w st'.graph ∧ DirectG cfg w st'.graph) ∧
      (∀ q ∈ r, Reaches cfg w p q) ∧
      (p ∉ path → filteredB cfg p = false →
        smapFind st'.graph p = some r ∧
        ∀ deps, collectDeps cfg w p = .ok deps → deps.toFinset ⊆ r) := by
  intro cfg w fuel
  induction fuel with
  | zero =>
    intro p path st st' r _ _ h
    rw [dfs_zero] at h
    cases h
  | succ fuel ih =>
    have loop : ∀ (deps : List String) (par : String) (np : List String) (st st' : St)
        (acc r : Finset String),
        SoundG cfg w st.graph → DirectG cfg w st.graph →
        (∀ q ∈ acc, Reaches cfg w par q) → (∀ d ∈ deps, Step cfg w par d) →
        buildLoopF (build_dependency_graph_dfs fuel cfg w) np deps st acc = .ok (st', r) →
        (SoundG cfg w st'.graph ∧ DirectG cfg w st'.graph) ∧
        (∀ q ∈ r, Reaches cfg w par q) ∧ acc ⊆ r := by
      intro deps
      induction deps with
      | nil =>
        intro par np st st' acc r hS hD hacc _ h
        rw [buildLoopF] at h
        cases h
        exact ⟨⟨hS, hD⟩, hacc, Finset.Subset.refl _⟩
      | cons d rest ihd =>
        intro par np st st' acc r hS hD hacc hdeps h
        rw [buildLoopF] at h
        by_cases hv : d ∈ st.visited
        · rw [if_pos hv] at h
          exact ihd par np st st' acc r hS hD hacc
            (fun d' hd' => hdeps d' (List.mem_cons_of_mem d hd')) h
        · rw [if_neg hv] at h
          cases hrec : build_dependency_graph_dfs fuel cfg w d np
              { st with visited := insert d st.visited } with
          | error e => simp only [hrec] at h; cases h
          | ok pr =>
            obtain ⟨stm, tdeps⟩ := pr
            simp only [hrec] at h
            have hmid := ih d np { st with visited := insert d st.visited } stm tdeps hS hD hrec
            obtain ⟨⟨hSm, hDm⟩, hreach, _⟩ := hmid
            have hacc' : ∀ q ∈ acc ∪ tdeps, Reaches cfg w par q := by
              intro q hq
              rcases Finset.mem_union.mp hq with hq | hq
              · exact hacc q hq
              · exact Relation.TransGen.head (hdeps d (List.mem_cons_self d rest)) (hreach q hq)
            have hrest := ihd par np stm st' (acc ∪ tdeps) r hSm hDm hacc'
              (fun d' hd' => hdeps d' (List.mem_cons_of_mem d hd')) h
            obtain ⟨hfin, hr, hsub⟩ := hrest
            exact ⟨hfin, hr, Finset.Subset.trans Finset.subset_union_left hsub⟩
    intro p path st st' r hS hD h
    rw [dfs_succ] at h
    by_cases hpath : p ∈ path
    · rw [if_pos hpath] at h
      cases h
      exact ⟨⟨hS, hD⟩, fun q hq => absurd hq (Finset.not_mem_empty q),
        fun hp _ => absurd hpath hp⟩
    · rw [if_neg hpath] at h
      by_cases hfil : filteredB cfg p
      · rw [if_pos hfil] at h
        cases h
        refine ⟨⟨hS, hD⟩, fun q hq => absurd hq (Finset.not_mem_empty q), fun _ hf => ?_⟩
        rw [hf] at hfil
        cases hfil
      · rw [if_neg hfil] at h
        cases hcache : smapFind st.graph p with
        | some cached =>
          simp only [hcache] at h
          cases h
          exact ⟨⟨hS, hD⟩, fun q hq => hS p _ hcache q hq,
            fun _ _ => ⟨hcache, fun deps hdeps => hD p _ deps hcache hdeps⟩⟩
        | none =>
          simp only [hcache] at h
          cases hcol : collectDeps cfg w p with
          | error e => simp only [hcol] at h; cases h
          | ok deps =>
            simp only [hcol] at h
            have hS2 : SoundG cfg w (smapInsert st.graph p deps.toFinset) := by
              intro p' s' hfind q hq
              rw [smapFind_smapInsert] at hfind
              by_cases hpp : p = p'
              · rw [if_pos hpp] at hfind
                cases hfind
                subst hpp
                exact Relation.TransGen.single ⟨deps, hcol, List.mem_toFinset.mp hq⟩
              · rw [if_neg hpp] at hfind
                exact hS p' s' hfind q hq
            have hD2 : DirectG cfg w (smapInsert st.graph p deps.toFinset) := by
              intro p' s' deps' hfind hcol'
              rw [smapFind_smapInsert] at hfind
              by_cases hpp : p = p'
              · rw [if_pos hpp] at hfind
                cases hfind
                subst hpp
                simp only [hcol] at hcol'
                cases hcol'
                exact Finset.Subset.refl _
              · rw [if_neg hpp] at hfind
                exact hD p' s' deps' hfind hcol'
            cases hloop : buildLoopF (build_dependency_graph_dfs fuel cfg w) (path ++ [p]) deps
                { st with graph := smapInsert st.graph p deps.toFinset,
                          rev := recordRev st.rev p deps } deps.toFinset with
            | error e => simp only [hloop] at h; cases h
            | ok pr =>
              obtain ⟨st3, all⟩ := pr
              simp only [hloop] at h
              cases h
              have hres := loop deps p (path ++ [p])
                { st with graph := smapInsert st.graph p deps.toFinset,
                          rev := recordRev st.rev p deps } st3 deps.toFinset r hS2 hD2
                (fun q hq => Relation.TransGen.single ⟨deps, hcol, List.mem_toFinset.mp hq⟩)
                (fun d hd => ⟨deps, hcol, hd⟩) hloop
              obtain ⟨⟨hS3, hD3⟩, hreach, hsub⟩ := hres
              refine ⟨⟨?_, ?_⟩, hreach, fun _ _ => ⟨?_, fun deps' hcol' => ?_⟩⟩
              · intro p' s' hfind q hq
                rw [smapFind_smapInsert] at hfind
                by_cases hpp : p = p'
                · rw [if_pos hpp] at hfind
                  cases hfind
                  subst hpp
                  exact hreach q hq
                · rw [if_neg hpp] at hfind
                  exact hS3 p' s' hfind q hq
              · intro p' s' deps' hfind hcol'
                rw [smapFind_smapInsert] at hfind
                by_cases hpp : p = p'
                · rw [if_pos hpp] at hfind
                  cases hfind
                  subst hpp
                  simp only [hcol] at hcol'
                  cases hcol'
                  exact hsub
                · rw [if_neg hpp] at hfind
                  exact hD3 p' s' deps' hfind hcol'
              · rw [smapFind_smapInsert, if_pos rfl]
              · simp only [hcol] at hcol'
                cases hcol'
                exact hsub

theorem buildExtends_of_visited (cfg : Config) (w : World) (st st' : St) (v : Finset String)
    (h : BuildExtends cfg w { st with visited := v } st') : BuildExtends cfg w st st' := h

theorem dfs_extends_all :
    ∀ (cfg : Config) (w : World) (fuel : Nat) (p : String) (path : List String)
      (st st' : St) (r : Finset String),
      build_dependency_graph_dfs fuel cfg w p path st = .ok (st', r) →
      BuildExtends cfg w st st' := by
  intro cfg w fuel
  induction fuel with
  | zero =>
    intro p path st st' r h
    rw [dfs_zero] at h
    cases h
  | succ fuel ih =>
    have loop : ∀ (deps : List String) (np : List String) (st st' : St) (acc r : Finset String),
        buildLoopF (build_dependency_graph_dfs fuel cfg w) np deps st acc = .ok (st', r) →
        BuildExtends cfg w st st' := by
      intro deps
      induction deps with
      | nil =>
        intro np st st' acc r h
        rw [buildLoopF] at h
        cases h
        exact buildExtends_refl cfg w st
      | cons d rest ihd =>
        intro np st st' acc r h
        rw [buildLoopF] at h
        by_cases hv : d ∈ st.visited
        · rw [if_pos hv] at h
          exact ihd np st st' acc r h
        · rw [if_neg hv] at h
          cases hrec : build_dependency_graph_dfs fuel cfg w d np
              { st with visited := insert d st.visited } with
          | error e => simp only [hrec] at h; cases h
          | ok pr =>
            obtain ⟨stm, tdeps⟩ := pr
            simp only [hrec] at h
            have h1 : BuildExtends cfg w st stm :=
              buildExtends_of_visited cfg w st stm _ (ih d np _ stm tdeps hrec)
            exact buildExtends_trans cfg w st stm st' h1 (ihd np stm st' _ r h)
    intro p path st st' r h
    rw [dfs_succ] at h
    by_cases hpath : p ∈ path
    · rw [if_pos hpath] at h
      cases h
      exact buildExtends_refl cfg w st
    · rw [if_neg hpath] at h
      by_cases hfil : filteredB cfg p
      · rw [if_pos hfil] at h
        cases h
        exact buildExtends_refl cfg w st
      · rw [if_neg hfil] at h
        cases hcache : smapFind st.graph p with
        | some cached =>
          simp only [hcache] at h
          cases h
          exact buildExtends_refl cfg w st
        | none =>
          simp only [hcache] at h
          cases hcol : collectDeps cfg w p with
          | error e => simp only [hcol] at h; cases h
          | ok deps =>
            simp only [hcol] at h
            cases hloop : buildLoopF (build_dependency_graph_dfs fuel cfg w) (path ++ [p]) deps
                { st with graph := smapInsert st.graph p deps.toFinset,
                          rev := recordRev st.rev p deps } deps.toFinset with
            | error e => simp only [hloop] at h; cases h
            | ok pr =>
              obtain ⟨st3, all⟩ := pr
              simp only [hloop] at h
              cases h
              have h12 : BuildExtends cfg w st
                  { st with graph := smapInsert st.graph p deps.toFinset,
                            rev := recordRev st.rev p deps } := by
                refine ⟨fun q hq => ?_, fun d s hs => ?_, fun q deps' d hq2 hq1 hcol' hd => ?_⟩
                · exact (keyIn_smapInsert st.graph p q deps.toFinset).mpr (Or.inr hq)
                · exact recordRev_mono deps st.rev p d s hs
                · have hqp : q = p := by
                    rcases (keyIn_smapInsert st.graph p q deps.toFinset).mp hq2 with hqp | hq'
                    · exact hqp
                    · exact absurd hq' hq1
                  subst hqp
                  simp only [hcol] at hcol'
                  cases hcol'
                  exact recordRev_mem _ st.rev q d hd
              have h23 : BuildExtends cfg w
                  { st with graph := smapInsert st.graph p deps.toFinset,
                            rev := recordRev st.rev p deps } st3 := loop deps _ _ st3 _ r hloop
              have hKeyp : KeyIn st3.graph p :=
                h23.1 p ((keyIn_smapInsert st.graph p p deps.toFinset).mpr (Or.inl rfl))
              have h34 : BuildExtends cfg w st3
                  { st3 with graph := smapInsert st3.graph p r } := by
                refine ⟨fun q hq => ?_, fun d s hs => ⟨s, hs, Finset.Subset.refl s⟩,
                  fun q deps' d hq2 hq1 hcol' hd => ?_⟩
                · exact (keyIn_smapInsert st3.graph p q r).mpr (Or.inr hq)
                · have hqp : q = p := by
                    rcases (keyIn_smapInsert st3.graph p q r).mp hq2 with hqp | hq'
                    · exact hqp
                    · exact absurd hq' hq1
                  subst hqp
                  exact absurd hKeyp hq1
              exact buildExtends_trans cfg w st st3 _
                (buildExtends_trans cfg w st _ st3 h12 h23) h34

/-! ## Further helper lemmas -/

theorem mem_keysF_iff (g : SMap) (p : String) :
    p ∈ keysF g ↔ ∃ s, smapFind g p = some s := by
  constructor
  · intro h
    induction g with
    | nil => simp [keysF] at h
    | cons e rest ih =>
      by_cases he : e.1 = p
      · exact ⟨e.2, by rw [smapFind, if_pos he]⟩
      · have h' : p ∈ keysF rest := by
          simp only [keysF, List.map_cons, List.mem_toFinset, List.mem_cons] at h
          rcases h with h | h
          · exact absurd h.symm he
          · simpa [keysF] using h
        obtain ⟨s, hs⟩ := ih h'
        exact ⟨s, by rw [smapFind, if_neg he]; exact hs⟩
  · rintro ⟨s, hs⟩
    exact mem_keysF_of_find g p s hs

theorem list_flatMap_congr {α β : Type} (l : List α) (f g : α → List β)
    (h : ∀ a ∈ l, f a = g a) : l.flatMap f = l.flatMap g := by
  induction l with
  | nil => rfl
  | cons a rest ih =>
    rw [List.flatMap_cons, List.flatMap_cons, h a (List.mem_cons_self a rest),
      ih (fun a' ha' => h a' (List.mem_cons_of_mem a ha'))]

theorem list_map_congr {α β : Type} (l : List α) (f g : α → β)
    (h : ∀ a ∈ l, f a = g a) : l.map f = l.map g := by
  induction l with
  | nil => rfl
  | cons a rest ih =>
    rw [List.map_cons, List.map_cons, h a (List.mem_cons_self a rest),
      ih (fun a' ha' => h a' (List.mem_cons_of_mem a ha'))]

theorem sort_pair {a b : String} (hab : a < b) :
    Finset.sort (· ≤ ·) ({a, b} : Finset String) = [a, b] := by
  rw [Finset.sort_insert]
  · rw [Finset.sort_singleton]
  · intro c hc
    rw [Finset.mem_singleton] at hc
    exact hc ▸ le_of_lt hab
  · simp [ne_of_lt hab]

theorem sort_triple {a b c : String} (hab : a < b) (hbc : b < c) :
    Finset.sort (· ≤ ·) ({a, b, c} : Finset String) = [a, b, c] := by
  rw [Finset.sort_insert, sort_pair hbc]
  · intro x hx
    simp only [Finset.mem_insert, Finset.mem_singleton] at hx
    rcases hx with rfl | rfl
    · exact le_of_lt hab
    · exact le_of_lt (lt_trans hab hbc)
  · simp only [Finset.mem_insert, Finset.mem_singleton]
    push_neg
    exact ⟨ne_of_lt hab, ne_of_lt (lt_trans hab hbc)⟩

/-! ## Concrete scenarios used by the claims -/

/-- Remote-mode configuration, root `A`, empty filter, list-style render. -/
def cfgPlain : Config := ⟨"A", "u", false, false, "", "test.txt"⟩

/-- Remote-mode configuration with root `R` and filter substring `X`. -/
def cfgFilter : Config := ⟨"R", "u", false, false, "X", "test.txt"⟩

/-- Remote-mode configuration with root `R`, empty filter. -/
def cfgR : Config := ⟨"R", "u", false, false, "", "test.txt"⟩

/-- Test-mode configuration with root `R` (test file `test.txt`). -/
def cfgTest : Config := ⟨"R", "u", true, false, "", "test.txt"⟩

/-- Source A→[B,C], B→[D], C→[B] (acyclic, shared package B). -/
def wC1 : World :=
  ⟨fun _ => none,
   fun p _ => if p = "A" then .ok ["B", "C"] else if p = "B" then .ok ["D"]
              else if p = "C" then .ok ["B"] else .ok []⟩

/-- Final state of the build from `A` over `wC1`. -/
def stC1 : St :=
  ⟨{"B", "C", "D"},
   [("A", {"B", "C", "D"}), ("B", {"D"}), ("D", ∅), ("C", {"B"})],
   [("B", {"A", "C"}), ("C", {"A"}), ("D", {"B"})]⟩

/-- Source with the two-cycle A→[B], B→[A]. -/
def wC2 : World :=
  ⟨fun _ => none,
   fun p _ => if p = "A" then .ok ["B"] else if p = "B" then .ok ["A"] else .ok []⟩

/-- Final state of the build from `A` over `wC2`. -/
def stC2 : St :=
  ⟨{"A", "B"}, [("A", {"A", "B"}), ("B", {"A"})], [("B", {"A"}), ("A", {"B"})]⟩

/-- Source R→[X] where fetching any other package (in particular X and Y)
would fail; used to show filtered subtrees are never fetched. -/
def wC3 : World :=
  ⟨fun _ => none, fun p _ => if p = "R" then .ok ["X"] else .error "never fetched"⟩

/-- Final state of the build from `R` over `wC3` with filter `X`. -/
def stC3 : St := ⟨{"X"}, [("R", {"X"})], [("X", {"R"})]⟩

/-- Source A→[B,C], B→[C], C→[] of the spec's end-to-end example. -/
def wC4 : World :=
  ⟨fun _ => none,
   fun p _ => if p = "A" then .ok ["B", "C"] else if p = "B" then .ok ["C"] else .ok []⟩

/-- Final state of the build from `A` over `wC4`. -/
def stC4 : St :=
  ⟨{"B", "C"}, [("A", {"B", "C"}), ("B", {"C"}), ("C", ∅)],
   [("B", {"A"}), ("C", {"A", "B"})]⟩

/-- Source R→[X] where X's fetch fails. -/
def wC5 : World :=
  ⟨fun _ => none, fun p _ => if p = "R" then .ok ["X"] else .error "boom"⟩

/-- World with no files at all (every open raises FileNotFoundError). -/
def wNoFiles : World := ⟨fun _ => none, fun _ _ => .ok []⟩

/-- A ForwardGraph containing a true cycle: A ∈ graph[B] and B ∈ graph[A]. -/
def gcyc : SMap := [("A", {"B"}), ("B", {"A"})]

/-- Source A→[B,C], B→[C], C→[E], E→[]. -/
def wC8a : World :=
  ⟨fun _ => none,
   fun p _ => if p = "A" then .ok ["B", "C"] else if p = "B" then .ok ["C"]
              else if p = "C" then .ok ["E"] else .ok []⟩

/-- The same source with A's dependency list reversed: A→[C,B], all other
packages answered identically (it delegates to `wC8a`). -/
def wC8b : World :=
  ⟨fun _ => none, fun p r => if p = "A" then .ok ["C", "B"] else wC8a.remote p r⟩

/-- Final state of the build from `A` over `wC8a`. -/
def stC8a : St :=
  ⟨{"B", "C", "E"},
   [("A", {"B", "C", "E"}), ("B", {"C", "E"}), ("C", {"E"}), ("E", ∅)],
   [("B", {"A"}), ("C", {"A", "B"}), ("E", {"C"})]⟩

/-- Final state of the build from `A` over `wC8b`: same per-package
dependency sets in the source, but B's entry is `{C}` instead of `{C, E}`
because E was globally visited before B's subtree was explored. -/
def stC8b : St :=
  ⟨{"B", "C", "E"},
   [("A", {"B", "C", "E"}), ("C", {"E"}), ("E", ∅), ("B", {"C"})],
   [("C", {"A", "B"}), ("B", {"A"}), ("E", {"C"})]⟩

/-- Two association lists with the same lookup semantics but different
entry order. -/
def gW1 : SMap := [("A", {"B"}), ("B", ∅)]

/-- Reordered version of `gW1`. -/
def gW2 : SMap := [("B", ∅), ("A", {"B"})]

/-! ## Concrete sort equations -/

theorem sortBC : Finset.sort (· ≤ ·) ({"B", "C"} : Finset String) = ["B", "C"] :=
  sort_pair (by simp; decide)

theorem sortCE : Finset.sort (· ≤ ·) ({"C", "E"} : Finset String) = ["C", "E"] :=
  sort_pair (by simp; decide)

theorem sortBCE : Finset.sort (· ≤ ·) ({"B", "C", "E"} : Finset String) = ["B", "C", "E"] :=
  sort_triple (by simp; decide) (by simp; decide)

theorem renderC4_eval :
    print_simple_list stC4.graph "A" 0 ∅ = ["A", "  └── B", "      └── C", "  └── C"] := by
  have hpA : smapFind stC4.graph "A" = some {"B", "C"} := by decide
  have hpB : smapFind stC4.graph "B" = some {"C"} := by decide
  have hpC : smapFind stC4.graph "C" = some ∅ := by decide
  repeat
    rw [psl_unfold]
    simp only [hpA, hpB, hpC, Option.getD_some, sortBC, Finset.sort_singleton,
      List.flatMap_cons, List.flatMap_nil, Finset.mem_insert, Finset.mem_singleton,
      Finset.not_mem_empty, Finset.singleton_ne_empty, Finset.insert_ne_empty,
      String.reduceEq, reduceIte, indentSp, String.reduceAppend, List.cons_append,
      List.nil_append, List.append_nil, or_false, false_or, or_true, true_or,
      not_false_iff, eq_self_iff_true, if_true, if_false, Nat.reduceAdd]
  rfl

theorem renderC8a_eval :
    print_simple_list stC8a.graph "A" 0 ∅ =
      ["A", "  └── B", "      └── C", "          └── E", "      └── E",
       "  └── C", "      └── E", "  └── E"] := by
  have hpA : smapFind stC8a.graph "A" = some {"B", "C", "E"} := by decide
  have hpB : smapFind stC8a.graph "B" = some {"C", "E"} := by decide
  have hpC : smapFind stC8a.graph "C" = some {"E"} := by decide
  have hpE : smapFind stC8a.graph "E" = some ∅ := by decide
  repeat
    rw [psl_unfold]
    simp only [hpA, hpB, hpC, hpE, Option.getD_some, sortBCE, sortCE, Finset.sort_singleton,
      List.flatMap_cons, List.flatMap_nil, Finset.mem_insert, Finset.mem_singleton,
      Finset.not_mem_empty, Finset.singleton_ne_empty, Finset.insert_ne_empty,
      String.reduceEq, reduceIte, indentSp, String.reduceAppend, List.cons_append,
      List.nil_append, List.append_nil, or_false, false_or, or_true, true_or,
      not_false_iff, eq_self_iff_true, if_true, if_false, Nat.reduceAdd]
  rfl

theorem renderC8b_eval :
    print_simple_list stC8b.graph "A" 0 ∅ =
      ["A", "  └── B", "      └── C", "          └── E",
       "  └── C", "      └── E", "  └── E"] := by
  have hpA : smapFind stC8b.graph "A" = some {"B", "C", "E"} := by decide
  have hpB : smapFind stC8b.graph "B" = some {"C"} := by decide
  have hpC : smapFind stC8b.graph "C" = some {"E"} := by decide
  have hpE : smapFind stC8b.graph "E" = some ∅ := by decide
  repeat
    rw [psl_unfold]
    simp only [hpA, hpB, hpC, hpE, Option.getD_some, sortBCE, Finset.sort_singleton,
      List.flatMap_cons, List.flatMap_nil, Finset.mem_insert, Finset.mem_singleton,
      Finset.not_mem_empty, Finset.singleton_ne_empty, Finset.insert_ne_empty,
      String.reduceEq, reduceIte, indentSp, String.reduceAppend, List.cons_append,
      List.nil_append, List.append_nil, or_false, false_or, or_true, true_or,
      not_false_iff, eq_self_iff_true, if_true, if_false, Nat.reduceAdd]
  rfl

theorem gcyc_simple_eval :
    print_simple_list gcyc "A" 0 ∅ =
      ["A", "  └── B", "      └── A", "        └── A (уже показан)"] := by
  have hpA : smapFind gcyc "A" = some {"B"} := by decide
  have hpB : smapFind gcyc "B" = some {"A"} := by decide
  repeat
    rw [psl_unfold]
    simp only [hpA, hpB, Option.getD_some, Finset.sort_singleton,
      List.flatMap_cons, List.flatMap_nil, Finset.mem_insert, Finset.mem_singleton,
      Finset.not_mem_empty, Finset.singleton_ne_empty, Finset.insert_ne_empty,
      String.reduceEq, reduceIte, indentSp, String.reduceAppend, List.cons_append,
      List.nil_append, List.append_nil, or_false, false_or, or_true, true_or,
      not_false_iff, eq_self_iff_true, if_true, if_false, Nat.reduceAdd]
  rfl

theorem gcyc_ascii_eval :
    print_ascii_tree gcyc "A" ∅ "" = "A\n└──     B\n    └──         └── A (цикл)\n" := by
  have hpA : smapFind gcyc "A" = some {"B"} := by decide
  have hpB : smapFind gcyc "B" = some {"A"} := by decide
  repeat
    rw [pat_unfold]
    simp only [hpA, hpB, Option.getD_some, Finset.sort_singleton,
      List.enum, List.enumFrom, List.map_cons, List.map_nil, List.length_cons,
      List.length_nil, String.join, List.foldl_cons, List.foldl_nil,
      Finset.mem_insert, Finset.mem_singleton,
      Finset.not_mem_empty, Finset.singleton_ne_empty, Finset.insert_ne_empty,
      String.reduceEq, reduceIte, String.reduceAppend, or_false, false_or, or_true, true_or,
      not_false_iff, eq_self_iff_true, if_true, if_false, Nat.reduceAdd, Nat.reduceSub]

/-! ## Claims -/

/-- C1, counterexample. The claim says a completed ForwardGraph entry is
the complete transitive dependency set, truncated only at filtered names
and cyclic re-entries. Refutation at a concrete input: over the acyclic,
unfiltered source A→[B,C], B→[D], C→[B], the build from A completes C's
traversal with ForwardGraph[C] = {B}, yet D is reachable from C
(C→B→D, no filtering, no cycle) and D ∉ {B}: the entry is additionally
truncated at the globally visited package B. -/
theorem c1_counterexample :
    buildFrom cfgPlain wC1 "A" = some stC1 ∧
    smapFind stC1.graph "C" = some {"B"} ∧
    Reaches cfgPlain wC1 "C" "D" ∧
    "D" ∉ ({"B"} : Finset String) := by
  refine ⟨by decide, by decide, ?_, by decide⟩
  have s1 : Step cfgPlain wC1 "C" "B" := ⟨["B"], by decide, by decide⟩
  have s2 : Step cfgPlain wC1 "B" "D" := ⟨["D"], by decide, by decide⟩
  exact Relation.TransGen.head s1 (Relation.TransGen.single s2)

/-- C1, amended. A completed entry need not contain every reachable
package (recursion is also truncated at packages already in the global
visited set — see the counterexample); what does hold for every build
step from a sound and direct-complete state: soundness (every entry, and
the returned set, contain only packages reachable from their key by
direct-dependency edges), plus, when the call is not cut off by the cycle
or filter check, the final entry of `p` equals the returned set and
contains all of `p`'s direct dependencies. -/
theorem c1_completed_entry (cfg : Config) (w : World) (fuel : Nat) (p : String)
    (path : List String) (st st' : St) (r : Finset String)
    (hS : SoundG cfg w st.graph) (hD : DirectG cfg w st.graph)
    (h : build_dependency_graph_dfs fuel cfg w p path st = .ok (st', r)) :
    (SoundG cfg w st'.graph ∧ DirectG cfg w st'.graph) ∧
    (∀ q ∈ r, Reaches cfg w p q) ∧
    (p ∉ path → filteredB cfg p = false →
      smapFind st'.graph p = some r ∧
      ∀ deps, collectDeps cfg w p = .ok deps → deps.toFinset ⊆ r) :=
  dfs_sound_all cfg w fuel p path st st' r hS hD h

/-- C1, witness: the amended theorem applied to the concrete build of the
counterexample's source from its fresh (trivially sound) state. -/
theorem c1_completed_entry_witness :
    (SoundG cfgPlain wC1 stC1.graph ∧ DirectG cfgPlain wC1 stC1.graph) ∧
    (∀ q ∈ ({"B", "C", "D"} : Finset String), Reaches cfgPlain wC1 "A" q) ∧
    ("A" ∉ ([] : List String) → filteredB cfgPlain "A" = false →
      smapFind stC1.graph "A" = some {"B", "C", "D"} ∧
      ∀ deps, collectDeps cfgPlain wC1 "A" = .ok deps →
        deps.toFinset ⊆ ({"B", "C", "D"} : Finset String)) :=
  c1_completed_entry cfgPlain wC1 50 "A" [] St.empty stC1 {"B", "C", "D"}
    (fun _ _ h => Option.noConfusion h) (fun _ _ _ h => Option.noConfusion h)
    (by decide)

/-- C2, counterexample. The claim says that for A→B→A the cyclic edge B→A
is recorded in neither graph. Refutation: building from A over that
source, A ∈ ForwardGraph[B] and B ∈ ReverseGraph[A] — the direct edge B→A
is written into both graphs (lines 211-216) before the cycle is detected
inside the recursive call. -/
theorem c2_counterexample :
    buildFrom cfgPlain wC2 "A" = some stC2 ∧
    "A" ∈ forwardOf stC2 "B" ∧
    "B" ∈ reverseOf stC2 "A" := by
  refine ⟨by decide, by decide, by decide⟩

/-- C2, amended. Over the source A→[B], B→[A], the build from A
terminates with ForwardGraph = {A ↦ {A,B}, B ↦ {A}} and ReverseGraph =
{B ↦ {A}, A ↦ {B}}: A's final set contains B (as claimed), but the cyclic
edge B→A is recorded as a direct edge in both graphs (A even enters its
own transitive set); cycle detection only prevents re-expansion of A. -/
theorem c2_amended_thm :
    build_dependency_graph_dfs 10 cfgPlain wC2 "A" [] St.empty = .ok (stC2, {"A", "B"}) ∧
    "B" ∈ forwardOf stC2 "A" ∧
    smapFind stC2.graph "B" = some {"A"} ∧
    smapFind stC2.rev "A" = some {"B"} := by
  refine ⟨by decide, by decide, by decide, by decide⟩

/-- C3, counterexample. The claim says that with filter "X" over
R→X→Y neither X nor Y appears in ForwardGraph[R]. Refutation: the build
from R stores ForwardGraph[R] = {X} — X is recorded as a mentioned direct
dependency (line 211 runs in R's frame; the filter only stops X's own
frame), so X ∈ ForwardGraph[R]. -/
theorem c3_counterexample :
    buildFrom cfgFilter wC3 "R" = some stC3 ∧
    "X" ∈ forwardOf stC3 "R" := by
  refine ⟨by decide, by decide⟩

/-- C3, amended. With filter "X" over root R→[X], the build succeeds even
though fetching any package other than R (in particular X, hence its
whole subtree including Y) would fail — so X and Y are never fetched; the
final graphs are exactly ForwardGraph = {R ↦ {X}} and ReverseGraph =
{X ↦ {R}}: X still appears inside ForwardGraph[R] as a mentioned direct
dependency, but neither X nor Y gets an entry of its own and Y appears
nowhere. -/
theorem c3_amended_thm :
    build_dependency_graph_dfs 10 cfgFilter wC3 "R" [] St.empty = .ok (stC3, {"X"}) ∧
    wC3.remote "X" "u" = .error "never fetched" ∧
    wC3.remote "Y" "u" = .error "never fetched" ∧
    smapFind stC3.graph "X" = none ∧
    smapFind stC3.graph "Y" = none ∧
    smapFind stC3.rev "Y" = none := by
  refine ⟨by decide, by decide, by decide, by decide, by decide, by decide⟩

/-- C4, counterexample. The claim predicts the list-style render lines
'A', '  └── B', '    └── C', '  └── C'. Refutation: the code indents a
dependency line by `"  " * (indent + 1)` and recurses with `indent + 2`,
so the line for C under B carries six spaces, not four. -/
theorem c4_counterexample :
    (buildFrom cfgPlain wC4 "A").map (fun st => print_simple_list st.graph "A" 0 ∅) ≠
      some ["A", "  └── B", "    └── C", "  └── C"] := by
  intro hcontra
  rw [show buildFrom cfgPlain wC4 "A" = some stC4 from by decide] at hcontra
  rw [Option.map_some', renderC4_eval] at hcontra
  have := Option.some.inj hcontra
  exact absurd this (by decide)

/-- C4, amended. Building A over the source A→[B,C], B→[C], C→[] yields
exactly ForwardGraph {A ↦ {B,C}, B ↦ {C}, C ↦ ∅} and ReverseGraph
{B ↦ {A}, C ↦ {A,B}} (as claimed), and the list-style render from A
outputs exactly the four lines 'A', '  └── B', '      └── C', '  └── C'
(the third line indented six spaces, by indent stepping of 2 at two
spaces per level). -/
theorem c4_amended_thm :
    buildFrom cfgPlain wC4 "A" = some stC4 ∧
    smapFind stC4.graph "A" = some {"B", "C"} ∧
    smapFind stC4.graph "B" = some {"C"} ∧
    smapFind stC4.graph "C" = some ∅ ∧
    stC4.rev = [("B", {"A"}), ("C", {"A", "B"})] ∧
    print_simple_list stC4.graph "A" 0 ∅ = ["A", "  └── B", "      └── C", "  └── C"] := by
  refine ⟨by decide, by decide, by decide, by decide, by decide, renderC4_eval⟩

/-- C5: failure of the dependency source propagates out of the whole
build. First conjunct, fully general: whenever a call actually reaches
the fetch (not a cyclic re-entry, not filtered, not cached) and the
source fails with `e` (network error in remote mode or missing test file
in test mode — both routed through `collectDeps`), the builder returns
that very error instead of any partial set. Second conjunct: an error at
depth 1 (R→X with X's fetch failing) aborts the whole build from R.
Third conjunct: in test mode with a missing test file the build from R
aborts with the FileNotFoundError-derived message. -/
theorem c5_source_error_propagates :
    (∀ (fuel : Nat) (cfg : Config) (w : World) (p : String) (path : List String) (st : St)
        (e : String), p ∉ path → filteredB cfg p = false → smapFind st.graph p = none →
        collectDeps cfg w p = .error e →
        build_dependency_graph_dfs (Nat.succ fuel) cfg w p path st = .error (.src e)) ∧
    build_dependency_graph_dfs 10 cfgR wC5 "R" [] St.empty = .error (.src "boom") ∧
    build_dependency_graph_dfs 10 cfgTest wNoFiles "R" [] St.empty =
      .error (.src "Тестовый файл не найден: test.txt") := by
  refine ⟨?_, by decide, by decide⟩
  intro fuel cfg w p path st e hp hf hc hcol
  rw [dfs_succ, if_neg hp, if_neg (fun hh => by rw [hf] at hh; cases hh)]
  simp only [hc, hcol]

/-- C5, witness: the general conjunct applied to a fresh build whose root
fetch fails. -/
theorem c5_witness :
    build_dependency_graph_dfs 1 cfgR wC5 "Z" [] St.empty = .error (.src "boom") :=
  c5_source_error_propagates.1 0 cfgR wC5 "Z" [] St.empty "boom" (by decide) (by decide)
    rfl (by decide)

/-- C6: both renderers terminate on every finite ForwardGraph, including
graphs with a true cycle — they are total functions defined by
well-founded recursion on the count of graph keys not yet in the
path-scoped visited set (each recursive call receives its own copy of
that set extended by the current node, which strictly shrinks the
measure). Exhibited here on the truly cyclic graph `gcyc`
(A ∈ graph[B] and B ∈ graph[A], first two conjuncts): both renderers
produce the finite outputs the code prints. -/
theorem c6_render_terminates :
    smapFind gcyc "A" = some {"B"} ∧ smapFind gcyc "B" = some {"A"} ∧
    print_simple_list gcyc "A" 0 ∅ =
      ["A", "  └── B", "      └── A", "        └── A (уже показан)"] ∧
    print_ascii_tree gcyc "A" ∅ "" = "A\n└──     B\n    └──         └── A (цикл)\n" :=
  ⟨by decide, by decide, gcyc_simple_eval, gcyc_ascii_eval⟩

/-- C7: after a completed build from a fresh state, every direct edge
(p, d) recorded during that build — p received a graph entry (i.e. its
fetch succeeded) and d is among the direct dependencies the source
returns for p — makes p a member of the set `find_reverse_dependencies`
returns for d on the built state (the cached ReverseGraph entry). -/
theorem c7_reverse_lookup (fuel : Nat) (cfg : Config) (w : World) (root : String)
    (st' : St) (r : Finset String) (p d : String) (deps : List String)
    (hb : build_dependency_graph_dfs fuel cfg w root [] St.empty = .ok (st', r))
    (hkey : KeyIn st'.graph p) (hcol : collectDeps cfg w p = .ok deps) (hd : d ∈ deps) :
    p ∈ find_reverse_dependencies st' cfg w d := by
  have hext := dfs_extends_all cfg w fuel root [] St.empty st' r hb
  have hnew : ¬ KeyIn St.empty.graph p := by
    rintro ⟨s, hs⟩
    exact Option.noConfusion hs
  obtain ⟨s, hs, hps⟩ := hext.2.2 p deps d hkey hnew hcol hd
  unfold find_reverse_dependencies
  simp only [hs]
  exact hps

/-- C7, witness: in the spec's end-to-end example, the recorded edge
(A, B) is answered by the reverse lookup for B. -/
theorem c7_witness : "A" ∈ find_reverse_dependencies stC4 cfgPlain wC4 "B" :=
  c7_reverse_lookup 50 cfgPlain wC4 "A" stC4 {"B", "C"} "A" "B" ["B", "C"]
    (by decide) ⟨{"B", "C"}, by decide⟩ (by decide) (by decide)

/-- C8, counterexample. The claim says two builds whose sources return
the same per-package dependency sets in different orders render
identically. Refutation: `wC8a` and `wC8b` agree on every package's set
(A: {B,C} versus {C,B} as lists; every other package is answered by the
very same function), yet the two builds produce different ForwardGraphs —
over `wC8a` B's entry is {C,E}, over `wC8b` it is {C}, because E was
already globally visited when B's subtree was explored — and the
list-style renders of the two final graphs differ. -/
theorem c8_counterexample :
    wC8a.remote "A" "u" = .ok ["B", "C"] ∧
    wC8b.remote "A" "u" = .ok ["C", "B"] ∧
    (["B", "C"] : List String).toFinset = (["C", "B"] : List String).toFinset ∧
    buildFrom cfgPlain wC8a "A" = some stC8a ∧
    buildFrom cfgPlain wC8b "A" = some stC8b ∧
    print_simple_list stC8a.graph "A" 0 ∅ ≠ print_simple_list stC8b.graph "A" 0 ∅ := by
  refine ⟨by decide, by decide, by decide, by decide, by decide, ?_⟩
  rw [renderC8a_eval, renderC8b_eval]
  decide

/-- C8, amended. Because the global visited set makes the memoized
ForwardGraph entries order-sensitive, set-equal sources do not guarantee
identical output (see the counterexample); what the sorted rendering does
guarantee is that the output is a function of the graph's lookup table
alone: two graphs answering every lookup identically (whatever the entry
order of the association list) render identically in both styles. -/
theorem c8_render_congruence (g1 g2 : SMap) (hfind : ∀ q, smapFind g1 q = smapFind g2 q)
    (p : String) (v : Finset String) (i : Nat) (pr : String) :
    print_simple_list g1 p i v = print_simple_list g2 p i v ∧
    print_ascii_tree g1 p v pr = print_ascii_tree g2 p v pr := by
  suffices H : ∀ (n : Nat) (p : String) (v : Finset String), (keysF g1 \ v).card ≤ n →
      (∀ i, print_simple_list g1 p i v = print_simple_list g2 p i v) ∧
      (∀ pr, print_ascii_tree g1 p v pr = print_ascii_tree g2 p v pr) by
    exact ⟨(H (keysF g1 \ v).card p v (le_refl _)).1 i,
           (H (keysF g1 \ v).card p v (le_refl _)).2 pr⟩
  intro n
  induction n with
  | zero =>
    intro p v hcard
    constructor
    · intro i
      by_cases hp : p ∈ v
      · rw [psl_unfold, psl_unfold, if_pos hp, if_pos hp]
      · cases hsome : smapFind g1 p with
        | some s =>
          exfalso
          have hpk : p ∈ keysF g1 := mem_keysF_of_find g1 p s hsome
          have : 0 < (keysF g1 \ v).card :=
            Finset.card_pos.mpr ⟨p, Finset.mem_sdiff.mpr ⟨hpk, hp⟩⟩
          omega
        | none =>
          have h2 : smapFind g2 p = none := (hfind p).symm.trans hsome
          rw [psl_unfold, psl_unfold, if_neg hp, if_neg hp, hsome, h2]
          simp only [Option.getD_none, Finset.sort_empty, List.flatMap_nil]
    · intro pr
      by_cases hp : p ∈ v
      · rw [pat_unfold, pat_unfold, if_pos hp, if_pos hp]
      · cases hsome : smapFind g1 p with
        | some s =>
          exfalso
          have hpk : p ∈ keysF g1 := mem_keysF_of_find g1 p s hsome
          have : 0 < (keysF g1 \ v).card :=
            Finset.card_pos.mpr ⟨p, Finset.mem_sdiff.mpr ⟨hpk, hp⟩⟩
          omega
        | none =>
          have h2 : smapFind g2 p = none := (hfind p).symm.trans hsome
          rw [pat_unfold, pat_unfold, if_neg hp, if_neg hp, hsome, h2]
          simp only [Option.getD_none, eq_self_iff_true, if_true]
  | succ n ihn =>
    intro p v hcard
    constructor
    · intro i
      by_cases hp : p ∈ v
      · rw [psl_unfold, psl_unfold, if_pos hp, if_pos hp]
      · rw [psl_unfold, psl_unfold, if_neg hp, if_neg hp, hfind p]
        congr 1
        apply list_flatMap_congr
        intro dep hdep
        have hpk : p ∈ keysF g1 := by
          rw [mem_keysF_iff, hfind p]
          cases hsome : smapFind g2 p with
          | none =>
            rw [hsome] at hdep
            simp only [Option.getD_none, Finset.sort_empty] at hdep
            exact absurd hdep (List.not_mem_nil dep)
          | some s => exact ⟨s, rfl⟩
        have hrec := ihn dep (insert p v)
          (Nat.lt_succ_iff.mp (lt_of_lt_of_le (card_sdiff_insert_lt (keysF g1) v p hpk hp) hcard))
        rw [hfind dep]
        cases hdep2 : smapFind g2 dep with
        | none => simp only [hdep2]
        | some ds =>
          simp only [hdep2]
          by_cases hds : ds = ∅
          · rw [if_pos hds, if_pos hds]
          · rw [if_neg hds, if_neg hds, hrec.1 (i + 2)]
    · intro pr
      by_cases hp : p ∈ v
      · rw [pat_unfold, pat_unfold, if_pos hp, if_pos hp]
      · rw [pat_unfold, pat_unfold, if_neg hp, if_neg hp, hfind p]
        congr 1
        by_cases hempty : (smapFind g2 p).getD ∅ = ∅
        · rw [if_pos hempty, if_pos hempty]
        · rw [if_neg hempty, if_neg hempty]
          congr 1
          apply list_map_congr
          intro e he
          have hpk : p ∈ keysF g1 := by
            rw [mem_keysF_iff, hfind p]
            cases hsome : smapFind g2 p with
            | none => rw [hsome] at hempty; exact absurd rfl hempty
            | some s => exact ⟨s, rfl⟩
          have hrec := ihn e.2 (insert p v)
            (Nat.lt_succ_iff.mp (lt_of_lt_of_le (card_sdiff_insert_lt (keysF g1) v p hpk hp) hcard))
          rw [hrec.2]

/-- C8, witness: the amended congruence applied to two association lists
with the same lookup table in different entry order. -/
theorem c8_congruence_witness :
    print_simple_list gW1 "A" 0 ∅ = print_simple_list gW2 "A" 0 ∅ ∧
    print_ascii_tree gW1 "A" ∅ "" = print_ascii_tree gW2 "A" ∅ "" := by
  have h : ∀ q, smapFind gW1 q = smapFind gW2 q := by
    intro q
    by_cases hA : ("A" : String) = q
    · subst hA
      decide
    · by_cases hB : ("B" : String) = q
      · subst hB
        decide
      · simp [gW1, gW2, smapFind, hA, hB]
  exact c8_render_congruence gW1 gW2 h "A" ∅ 0 ""

/-- C9: rendering never mutates the graph. `print_dependency_graph`
returns the state unchanged (first conjunct), and the text it emits is
computed by the pure renderers started on a freshly created empty
path-visited set (second conjunct, for the case where the root has a
graph entry; otherwise only the "граф не построен" notice is printed). -/
theorem c9_render_pure :
    (∀ (st : St) (cfg : Config), (print_dependency_graph st cfg).1 = st) ∧
    (∀ (st : St) (cfg : Config) (s : Finset String),
      smapFind st.graph cfg.package = some s →
      (print_dependency_graph st cfg).2 =
        "\nПолный граф зависимостей пакета '" ++ cfg.package ++ "':\n" ++ dashes 50 ++ "\n" ++
        (if cfg.ascii_tree then print_ascii_tree st.graph cfg.package ∅ ""
         else joinLines (print_simple_list st.graph cfg.package 0 ∅)) ++
        dashes 50 ++ "\n") := by
  constructor
  · intro st cfg
    unfold print_dependency_graph
    cases h : smapFind st.graph cfg.package <;> simp only [h]
  · intro st cfg s h
    unfold print_dependency_graph
    simp only [h]

/-- C9, witness: the purity theorem applied to the end-to-end example's
built state. -/
theorem c9_witness :
    (print_dependency_graph stC4 cfgPlain).1 = stC4 ∧
    (print_dependency_graph stC4 cfgPlain).2 =
      "\nПолный граф зависимостей пакета '" ++ cfgPlain.package ++ "':\n" ++ dashes 50 ++ "\n" ++
      (if cfgPlain.ascii_tree then print_ascii_tree stC4.graph cfgPlain.package ∅ ""
       else joinLines (print_simple_list stC4.graph cfgPlain.package 0 ∅)) ++
      dashes 50 ++ "\n" :=
  ⟨c9_render_pure.1 stC4 cfgPlain, c9_render_pure.2 stC4 cfgPlain {"B", "C"} (by decide)⟩

/-- C10: for a target with no ReverseGraph entry, the reverse lookup in
remote (non-test) mode returns the empty set without raising and without
consulting the remote source: the result does not depend on the world at
all (first conjunct), and equals ∅ (second conjunct), so an uncached
target is indistinguishable from a package nothing depends on. -/
theorem c10_uncached_remote_reverse :
    (∀ (st : St) (cfg : Config) (w w' : World) (t : String), cfg.test_mode = false →
      find_reverse_dependencies st cfg w t = find_reverse_dependencies st cfg w' t) ∧
    (∀ (st : St) (cfg : Config) (w : World) (t : String), cfg.test_mode = false →
      smapFind st.rev t = none → find_reverse_dependencies st cfg w t = ∅) := by
  constructor
  · intro st cfg w w' t hm
    unfold find_reverse_dependencies
    cases h : smapFind st.rev t <;> simp only [h, hm, Bool.false_eq_true, if_false]
  · intro st cfg w t hm hn
    unfold find_reverse_dependencies
    simp only [hn, hm, Bool.false_eq_true, if_false]

/-- C10, witness: an uncached target on the empty state in remote mode. -/
theorem c10_witness :
    find_reverse_dependencies St.empty cfgPlain wC4 "Z" =
      find_reverse_dependencies St.empty cfgPlain wC2 "Z" ∧
    find_reverse_dependencies St.empty cfgPlain wC4 "Z" = ∅ :=
  ⟨c10_uncached_remote_reverse.1 St.empty cfgPlain wC4 wC2 "Z" rfl,
   c10_uncached_remote_reverse.2 St.empty cfgPlain wC4 "Z" rfl rfl⟩
